import Mathlib

/-!
Shallow embedding of the per-guild scheduler from `src/index.js` (class
`GuildScheduler` and its helpers).  Jobs, the dedup cache, the schedule /
list / cancel handlers and the alarm drain loop are translated directly
from the JavaScript source; times are modelled as integers (milliseconds
or seconds, as in the source).
-/

/-- A JavaScript value stored in the `delivered` object: either a number
(a delivery timestamp in ms) or some non-numeric junk value. -/
inductive JSVal where
  | num (t : Int)
  | other
deriving DecidableEq, Repr

/-- The `delivered` dedup cache: a JS object, modelled as an association
list from occurrence key to stored value, in insertion order. -/
abbrev Cache := List (String × JSVal)

/-- A scheduled job record, as built by the `/schedule` handler. -/
structure Job where
  id : String
  guildId : String
  channelId : String
  doAtType : String
  doAtSubject : String
  scheduledUnix : Int
  runAtMs : Int
  repeatDaily : Bool
  createdBy : Option String
deriving DecidableEq, Repr

/-- `DELIVERED_TTL_MS`: keep 14 days of dedup keys. -/
def DELIVERED_TTL_MS : Int := 14 * 24 * 60 * 60 * 1000

/-- `deliveryKey(job)`: one key per instance of the job (id + scheduled time). -/
def deliveryKey (job : Job) : String :=
  job.id ++ ":" ++ toString job.scheduledUnix

/-- The deletion test inside `pruneDelivered`:
`typeof v !== "number" || v < nowMs - DELIVERED_TTL_MS`. -/
def pruneDrop (v : JSVal) (nowMs : Int) : Bool :=
  match v with
  | .num t => decide (t < nowMs - DELIVERED_TTL_MS)
  | .other => true

/-- `pruneDelivered(delivered, nowMs)`: delete every entry whose value is
not a number or is older than the TTL window. -/
def pruneDelivered (delivered : Cache) (nowMs : Int) : Cache :=
  match delivered with
  | [] => []
  | (k, v) :: rest =>
    if pruneDrop v nowMs then pruneDelivered rest nowMs
    else (k, v) :: pruneDelivered rest nowMs

/-- Property lookup `delivered[key]` on the JS object. -/
def lookupKey (delivered : Cache) (k : String) : Option JSVal :=
  (delivered.find? (fun e => e.1 == k)).map (·.2)

/-- Property assignment `delivered[key] = v` on the JS object: update in
place when the key exists, otherwise append. -/
def setKey (delivered : Cache) (k : String) (v : JSVal) : Cache :=
  if (delivered.find? (fun e => e.1 == k)).isSome then
    delivered.map (fun e => if e.1 == k then (k, v) else e)
  else delivered ++ [(k, v)]

/-- The comparator `(a, b) => a.runAtMs - b.runAtMs` as a relation. -/
def jobLE (a b : Job) : Prop := a.runAtMs ≤ b.runAtMs

instance : DecidableRel jobLE := fun a b => inferInstanceAs (Decidable (a.runAtMs ≤ b.runAtMs))

instance : IsTotal Job jobLE := ⟨fun a b => Int.le_total a.runAtMs b.runAtMs⟩

instance : IsTrans Job jobLE := ⟨fun _ _ _ hab hbc => le_trans hab hbc⟩

/-- `jobs.sort((a, b) => a.runAtMs - b.runAtMs)`: a stable sort by due
time (JS `Array.prototype.sort` is stable, as is insertion sort). -/
def sortJobs (jobs : List Job) : List Job := List.insertionSort jobLE jobs

/-- The keys of `doAtTypeHandlers`. -/
def handlerKinds : List String := ["ping-role", "ping-user", "channel-message"]

/-- `job.doAtType in doAtTypeHandlers`. -/
def hasHandler (kind : String) : Bool := handlerKinds.contains kind

theorem sortJobs_perm (l : List Job) : List.Perm (sortJobs l) l :=
  List.perm_insertionSort jobLE l

theorem sortJobs_sorted (l : List Job) : List.Sorted jobLE (sortJobs l) :=
  List.sorted_insertionSort jobLE l

theorem sortJobs_countP (l : List Job) (p : Job → Bool) :
    (sortJobs l).countP p = l.countP p :=
  (sortJobs_perm l).countP_eq p

theorem sortJobs_length (l : List Job) : (sortJobs l).length = l.length :=
  (sortJobs_perm l).length_eq

theorem sortJobs_mem {l : List Job} {j : Job} : j ∈ sortJobs l ↔ j ∈ l :=
  (sortJobs_perm l).mem_iff

/-- The head of the sorted job list is a member attaining the minimum due time. -/
theorem sortJobs_head_min {l : List Job} {j : Job} (h : (sortJobs l).head? = some j) :
    j ∈ l ∧ ∀ x ∈ l, j.runAtMs ≤ x.runAtMs := by
  rcases hs : sortJobs l with _ | ⟨a, t⟩
  · rw [hs] at h; simp at h
  · rw [hs] at h
    simp only [List.head?_cons, Option.some.injEq] at h
    have hsorted := sortJobs_sorted l
    rw [hs] at hsorted
    constructor
    · refine sortJobs_mem.1 ?_
      rw [hs, ← h]
      exact List.mem_cons_self a t
    · intro x hx
      have hx2 : x ∈ sortJobs l := sortJobs_mem.2 hx
      rw [hs] at hx2
      rcases List.mem_cons.1 hx2 with h1 | h2
      · rw [h1, ← h]
      · rw [← h]; exact List.rel_of_sorted_cons hsorted x h2

/-- The catch-up loop in the reschedule transaction:
`while (nextMs <= Date.now()) { nextUnix += 86400; nextMs += 86_400_000 }`.
Returns the final `(nextUnix, nextMs)` pair. -/
def catchUp (now nextUnix nextMs : Int) : Int × Int :=
  if nextMs ≤ now then catchUp now (nextUnix + 86400) (nextMs + 86400000)
  else (nextUnix, nextMs)
termination_by (now + 1 - nextMs).toNat
decreasing_by omega

/-- Building the rescheduled occurrence of a repeating job:
start one day after the current occurrence and catch up past `now`. -/
def advanceDaily (cur : Job) (now : Int) : Job :=
  let p := catchUp now (cur.scheduledUnix + 86400) (cur.runAtMs + 86400000)
  { cur with scheduledUnix := p.1, runAtMs := p.2 }

theorem catchUp_spec (now nextUnix nextMs : Int) :
    ∃ k : Nat,
      catchUp now nextUnix nextMs = (nextUnix + k * 86400, nextMs + k * 86400000) ∧
      now < nextMs + k * 86400000 ∧
      ∀ k2 : Nat, k2 < k → nextMs + k2 * 86400000 ≤ now := by
  by_cases h : nextMs ≤ now
  · obtain ⟨k, hk1, hk2, hk3⟩ := catchUp_spec now (nextUnix + 86400) (nextMs + 86400000)
    refine ⟨k + 1, ?_, ?_, ?_⟩
    · rw [catchUp, if_pos h, hk1]
      simp only [Prod.mk.injEq]
      constructor <;> push_cast <;> ring
    · push_cast at hk2 ⊢; linarith
    · intro k2 hk2lt
      rcases Nat.eq_zero_or_pos k2 with h0 | hpos
      · subst h0; simpa using h
      · obtain ⟨k3, rfl⟩ := Nat.exists_eq_add_of_le hpos
        have := hk3 k3 (by omega)
        push_cast at this ⊢
        linarith
  · refine ⟨0, ?_, ?_, ?_⟩
    · rw [catchUp, if_neg h]; simp
    · simpa using by omega
    · intro k2 hk2; omega
termination_by (now + 1 - nextMs).toNat
decreasing_by omega

/-- The rescheduled job keeps all fields except the times, which advance
by the least positive whole number of days putting it strictly after `now`. -/
theorem advanceDaily_spec (cur : Job) (now : Int) :
    ∃ k : Nat, 1 ≤ k ∧
      advanceDaily cur now =
        { cur with scheduledUnix := cur.scheduledUnix + k * 86400,
                   runAtMs := cur.runAtMs + k * 86400000 } ∧
      now < cur.runAtMs + k * 86400000 ∧
      ∀ k2 : Nat, 1 ≤ k2 → k2 < k → cur.runAtMs + k2 * 86400000 ≤ now := by
  obtain ⟨k, hk1, hk2, hk3⟩ := catchUp_spec now (cur.scheduledUnix + 86400) (cur.runAtMs + 86400000)
  refine ⟨k + 1, by omega, ?_, ?_, ?_⟩
  · rw [advanceDaily]
    simp only [hk1]
    congr 1 <;> push_cast <;> ring
  · push_cast at hk2 ⊢; linarith
  · intro k2 h1 h2
    obtain ⟨k3, rfl⟩ := Nat.exists_eq_add_of_le h1
    have := hk3 k3 (by omega)
    push_cast at this ⊢
    linarith

/-- The next occurrence of a repeating job is strictly in the future. -/
theorem advanceDaily_runAtMs_gt (cur : Job) (now : Int) :
    now < (advanceDaily cur now).runAtMs := by
  obtain ⟨k, _, heq, hgt, _⟩ := advanceDaily_spec cur now
  rw [heq]
  exact hgt

/-- The occurrence-matching predicate of the remove/reschedule transaction:
`(j) => j.id === job.id && j.scheduledUnix === job.scheduledUnix`. -/
def occMatch (j tgt : Job) : Bool :=
  j.id == tgt.id && j.scheduledUnix == tgt.scheduledUnix

/-- `findIndex` + `splice(idx, 1)` for the occurrence predicate: returns the
first matching element (if any) and the list with it removed. -/
def removeMatch : List Job → Job → Option Job × List Job
  | [], _ => (none, [])
  | x :: xs, tgt =>
    if occMatch x tgt then (some x, xs)
    else ((removeMatch xs tgt).1, x :: (removeMatch xs tgt).2)

/-- `findIndex` + `splice(idx, 1)` for the id-matching predicate of `/cancel`. -/
def removeById : List Job → String → Option Job × List Job
  | [], _ => (none, [])
  | x :: xs, tid =>
    if x.id == tid then (some x, xs)
    else ((removeById xs tid).1, x :: (removeById xs tid).2)

theorem occMatch_self (j : Job) : occMatch j j = true := by
  simp [occMatch]

theorem removeMatch_cons_self (tgt : Job) (xs : List Job) :
    removeMatch (tgt :: xs) tgt = (some tgt, xs) := by
  simp [removeMatch, occMatch_self]

theorem removeMatch_perm {l : List Job} {tgt c : Job} {rest : List Job}
    (h : removeMatch l tgt = (some c, rest)) : List.Perm l (c :: rest) := by
  induction l generalizing rest with
  | nil => simp [removeMatch] at h
  | cons x xs ih =>
    by_cases hx : occMatch x tgt
    · rw [removeMatch, if_pos hx] at h
      injection h with h1 h2
      injection h1 with h1
      subst h1; subst h2
      exact List.Perm.refl _
    · rcases hp : removeMatch xs tgt with ⟨o, l2⟩
      rw [removeMatch, if_neg hx, hp] at h
      injection h with h1 h2
      subst h1
      rw [← h2]
      exact ((ih hp).cons x).trans (List.Perm.swap c x l2)

theorem removeMatch_some_of_match {l : List Job} {tgt x : Job}
    (hm : x ∈ l) (hx : occMatch x tgt = true) :
    ∃ c rest, removeMatch l tgt = (some c, rest) := by
  induction l with
  | nil => simp at hm
  | cons y ys ih =>
    by_cases hy : occMatch y tgt
    · exact ⟨y, ys, by rw [removeMatch, if_pos hy]⟩
    · rcases List.mem_cons.1 hm with h1 | h2
      · subst h1; exact absurd hx (by simpa using hy)
      · obtain ⟨c, rest, hcr⟩ := ih h2
        exact ⟨c, y :: rest, by rw [removeMatch, if_neg hy, hcr]⟩

theorem removeById_perm {l : List Job} {tid : String} {c : Job} {rest : List Job}
    (h : removeById l tid = (some c, rest)) : List.Perm l (c :: rest) := by
  induction l generalizing rest with
  | nil => simp [removeById] at h
  | cons x xs ih =>
    by_cases hx : x.id == tid
    · rw [removeById, if_pos hx] at h
      injection h with h1 h2
      injection h1 with h1
      subst h1; subst h2
      exact List.Perm.refl _
    · rcases hp : removeById xs tid with ⟨o, l2⟩
      rw [removeById, if_neg hx, hp] at h
      injection h with h1 h2
      subst h1
      rw [← h2]
      exact ((ih hp).cons x).trans (List.Perm.swap c x l2)

theorem removeById_id {l : List Job} {tid : String} {c : Job} {rest : List Job}
    (h : removeById l tid = (some c, rest)) : c.id = tid := by
  induction l generalizing rest with
  | nil => simp [removeById] at h
  | cons x xs ih =>
    by_cases hx : x.id == tid
    · rw [removeById, if_pos hx] at h
      injection h with h1 h2
      injection h1 with h1
      subst h1
      exact eq_of_beq hx
    · rcases hp : removeById xs tid with ⟨o, l2⟩
      rw [removeById, if_neg hx, hp] at h
      injection h with h1 h2
      subst h1
      exact ih hp

theorem removeById_none {l : List Job} {tid : String}
    (h : l.countP (fun j => j.id == tid) = 0) : removeById l tid = (none, l) := by
  induction l with
  | nil => rfl
  | cons x xs ih =>
    rw [List.countP_cons] at h
    have hx : (x.id == tid) = false := by
      by_cases hb : x.id == tid
      · rw [hb] at h; simp at h
      · simpa using hb
    have hxs : xs.countP (fun j => j.id == tid) = 0 := by
      rw [hx] at h; simpa using h
    rw [removeById, if_neg (by simp [hx]), ih hxs]

theorem removeById_none_of_eq {l : List Job} {tid : String} {rest : List Job}
    (h : removeById l tid = (none, rest)) :
    rest = l ∧ l.countP (fun j => j.id == tid) = 0 := by
  induction l generalizing rest with
  | nil =>
    simp only [removeById] at h
    injection h with h1 h2
    subst h2; simp
  | cons x xs ih =>
    by_cases hx : x.id == tid
    · rw [removeById, if_pos hx] at h
      injection h with h1 _
      simp at h1
    · rcases hp : removeById xs tid with ⟨o, l2⟩
      rw [removeById, if_neg hx, hp] at h
      injection h with h1 h2
      subst h1
      obtain ⟨hr, hc⟩ := ih hp
      subst hr
      refine ⟨by rw [← h2], ?_⟩
      rw [List.countP_cons]
      simp only [hc]
      by_cases hb : x.id == tid
      · exact absurd hb hx
      · simp [hb]


/-- Number of jobs currently due (`runAtMs <= now`). -/
def dueCount (now : Int) (jobs : List Job) : Nat :=
  jobs.countP (fun j => decide (j.runAtMs ≤ now))

/-- Termination measure for the drain loop: each iteration removes a due
job, or replaces a due job by one strictly in the future, or removes a
corrupt job, so this quantity strictly decreases. -/
def loopMeasure (now : Int) (jobs : List Job) : Nat :=
  2 * dueCount now jobs + jobs.length

/-- The remove/reschedule transaction of the alarm handler (step 2):
read and sort the stored jobs, find this exact occurrence, splice it out,
re-insert the advanced copy when `repeatDaily`, sort and write back.
When the occurrence is gone the transaction leaves the store untouched. -/
def removeOrReschedule (jobs : List Job) (tgt : Job) (now : Int) : List Job :=
  match removeMatch (sortJobs jobs) tgt with
  | (none, _) => jobs
  | (some cur, rest) =>
      sortJobs (if cur.repeatDaily then rest ++ [advanceDaily cur now] else rest)

/-- The purge transaction for a job whose `doAtType` has no handler:
find this exact occurrence in the stored jobs (unsorted read), splice it
out, sort and write back; no reschedule even when `repeatDaily`. -/
def purgeJob (jobs : List Job) (tgt : Job) : List Job :=
  match removeMatch jobs tgt with
  | (none, _) => jobs
  | (some _, rest) => sortJobs rest

theorem sortJobs_head_cons {jobs : List Job} {j : Job}
    (h : (sortJobs jobs).head? = some j) : ∃ t, sortJobs jobs = j :: t := by
  rcases hs : sortJobs jobs with _ | ⟨a, t⟩
  · rw [hs] at h; simp at h
  · rw [hs] at h
    simp only [List.head?_cons, Option.some.injEq] at h
    exact ⟨t, by rw [← h]⟩

theorem removeOrReschedule_lt {jobs : List Job} {j : Job} {now : Int}
    (h : (sortJobs jobs).head? = some j) (hd : j.runAtMs ≤ now) :
    loopMeasure now (removeOrReschedule jobs j now) < loopMeasure now jobs := by
  obtain ⟨t, ht⟩ := sortJobs_head_cons h
  have hcnt : dueCount now jobs = dueCount now t + 1 := by
    have : dueCount now (sortJobs jobs) = dueCount now jobs := sortJobs_countP jobs _
    rw [ht] at this
    rw [← this, dueCount, List.countP_cons]
    simp [dueCount, hd]
  have hlen : jobs.length = t.length + 1 := by
    have : (sortJobs jobs).length = jobs.length := sortJobs_length jobs
    rw [ht] at this
    simpa using this.symm
  rw [removeOrReschedule, ht, removeMatch_cons_self]
  dsimp only
  by_cases hr : j.repeatDaily
  · rw [if_pos hr]
    have hadv : dueCount now (t ++ [advanceDaily j now]) = dueCount now t := by
      have hfut : ¬ (advanceDaily j now).runAtMs ≤ now := not_le.2 (advanceDaily_runAtMs_gt j now)
      simp [dueCount, List.countP_append, hfut]
    simp only [loopMeasure, dueCount] at hadv hcnt ⊢
    rw [sortJobs_countP, sortJobs_length]
    rw [hadv, hcnt, hlen, List.length_append]
    simp
  · rw [if_neg hr]
    simp only [loopMeasure, dueCount] at hcnt ⊢
    rw [sortJobs_countP, sortJobs_length]
    rw [hcnt, hlen]
    omega

theorem purgeJob_lt {jobs : List Job} {j : Job}
    (h : (sortJobs jobs).head? = some j) (now : Int) :
    loopMeasure now (purgeJob jobs j) < loopMeasure now jobs := by
  obtain ⟨t, ht⟩ := sortJobs_head_cons h
  have hmem : j ∈ jobs := by
    refine sortJobs_mem.1 ?_
    rw [ht]; exact List.mem_cons_self j t
  obtain ⟨c, rest, hcr⟩ := removeMatch_some_of_match hmem (occMatch_self j)
  have hperm : List.Perm jobs (c :: rest) := removeMatch_perm hcr
  have hcnt : dueCount now rest ≤ dueCount now jobs := by
    have h2 : dueCount now jobs = dueCount now (c :: rest) := hperm.countP_eq _
    rw [h2]
    simp only [dueCount, List.countP_cons]
    omega
  have hlen : jobs.length = rest.length + 1 := by
    have := hperm.length_eq
    simpa using this
  rw [purgeJob, hcr]
  dsimp only
  simp only [loopMeasure, dueCount] at hcnt ⊢
  rw [sortJobs_countP, sortJobs_length]
  omega

/-- The outcome of one iteration of the drain loop. -/
inductive StepRes where
  | stop
  | cont (jobs : List Job) (delivered : Cache) (sent : Option Job)
  | failed (delivered : Cache)
deriving Repr

/-- One iteration of the alarm drain loop: read the sorted jobs, stop when
none is due, otherwise process the earliest job as the source does
(dedup-cache check, missing-handler purge, send, mark delivered,
remove/reschedule).  A failed send persists the pruned dedup cache and
throws, modelled by `StepRes.failed`. -/
def alarmStep (send : Job → Bool) (now : Int) (jobs : List Job) (delivered : Cache) : StepRes :=
  match (sortJobs jobs).head? with
  | none => .stop
  | some job =>
    if now < job.runAtMs then .stop
    else if (lookupKey delivered (deliveryKey job)).isSome then
      .cont (removeOrReschedule jobs job now) delivered none
    else if hasHandler job.doAtType then
      if send job then
        .cont (removeOrReschedule jobs job now)
          (pruneDelivered (setKey delivered (deliveryKey job) (.num now)) now)
          (some job)
      else .failed (pruneDelivered delivered now)
    else .cont (purgeJob jobs job) delivered none

theorem alarmStep_none {send : Job → Bool} {now : Int} {jobs : List Job} {d : Cache}
    (hh : (sortJobs jobs).head? = none) : alarmStep send now jobs d = .stop := by
  unfold alarmStep; rw [hh]

theorem alarmStep_future {send : Job → Bool} {now : Int} {jobs : List Job} {d : Cache} {j : Job}
    (hh : (sortJobs jobs).head? = some j) (hf : now < j.runAtMs) :
    alarmStep send now jobs d = .stop := by
  unfold alarmStep; rw [hh]; simp [hf]

theorem alarmStep_dedup {send : Job → Bool} {now : Int} {jobs : List Job} {d : Cache} {j : Job}
    (hh : (sortJobs jobs).head? = some j) (hd : j.runAtMs ≤ now)
    (hk : (lookupKey d (deliveryKey j)).isSome = true) :
    alarmStep send now jobs d = .cont (removeOrReschedule jobs j now) d none := by
  unfold alarmStep; rw [hh]
  simp [not_lt.2 hd, hk]

theorem alarmStep_sendOk {send : Job → Bool} {now : Int} {jobs : List Job} {d : Cache} {j : Job}
    (hh : (sortJobs jobs).head? = some j) (hd : j.runAtMs ≤ now)
    (hk : (lookupKey d (deliveryKey j)).isSome = false)
    (hha : hasHandler j.doAtType = true) (hs : send j = true) :
    alarmStep send now jobs d =
      .cont (removeOrReschedule jobs j now)
        (pruneDelivered (setKey d (deliveryKey j) (.num now)) now) (some j) := by
  unfold alarmStep; rw [hh]
  simp [not_lt.2 hd, hk, hha, hs]

theorem alarmStep_sendFail {send : Job → Bool} {now : Int} {jobs : List Job} {d : Cache} {j : Job}
    (hh : (sortJobs jobs).head? = some j) (hd : j.runAtMs ≤ now)
    (hk : (lookupKey d (deliveryKey j)).isSome = false)
    (hha : hasHandler j.doAtType = true) (hs : send j = false) :
    alarmStep send now jobs d = .failed (pruneDelivered d now) := by
  unfold alarmStep; rw [hh]
  simp [not_lt.2 hd, hk, hha, hs]

theorem alarmStep_purge {send : Job → Bool} {now : Int} {jobs : List Job} {d : Cache} {j : Job}
    (hh : (sortJobs jobs).head? = some j) (hd : j.runAtMs ≤ now)
    (hk : (lookupKey d (deliveryKey j)).isSome = false)
    (hha : hasHandler j.doAtType = false) :
    alarmStep send now jobs d = .cont (purgeJob jobs j) d none := by
  unfold alarmStep; rw [hh]
  simp [not_lt.2 hd, hk, hha]

theorem alarmStep_cont_lt {send : Job → Bool} {now : Int} {jobs j1 : List Job}
    {d d1 : Cache} {s1 : Option Job}
    (h : alarmStep send now jobs d = .cont j1 d1 s1) :
    loopMeasure now j1 < loopMeasure now jobs := by
  rcases hh : (sortJobs jobs).head? with _ | j
  · rw [alarmStep_none hh] at h
    exact StepRes.noConfusion h
  · by_cases hf : now < j.runAtMs
    · rw [alarmStep_future hh hf] at h
      exact StepRes.noConfusion h
    · have hd : j.runAtMs ≤ now := not_lt.1 hf
      by_cases hk : (lookupKey d (deliveryKey j)).isSome
      · rw [alarmStep_dedup hh hd hk] at h
        injection h with h1 _ _
        rw [← h1]
        exact removeOrReschedule_lt hh hd
      · have hk2 : (lookupKey d (deliveryKey j)).isSome = false := by simpa using hk
        by_cases hha : hasHandler j.doAtType
        · by_cases hs : send j
          · rw [alarmStep_sendOk hh hd hk2 hha hs] at h
            injection h with h1 _ _
            rw [← h1]
            exact removeOrReschedule_lt hh hd
          · rw [alarmStep_sendFail hh hd hk2 hha (by simpa using hs)] at h
            exact StepRes.noConfusion h
        · rw [alarmStep_purge hh hd hk2 (by simpa using hha)] at h
          injection h with h1 _ _
          rw [← h1]
          exact purgeJob_lt hh now

/-- The result of the drain loop: the persisted jobs, the in-memory dedup
cache, the sends performed (in order), and whether the loop exited
normally (`completed = false` means a send failure threw). -/
structure LoopOut where
  jobs : List Job
  delivered : Cache
  sends : List Job
  completed : Bool
deriving DecidableEq, Repr

/-- The `while (true)` drain loop of `GuildScheduler.alarm`, iterating
`alarmStep` until the earliest job is no longer due or a send fails. -/
def alarmLoop (send : Job → Bool) (now : Int) (jobs : List Job) (delivered : Cache)
    (sends : List Job) : LoopOut :=
  match h : alarmStep send now jobs delivered with
  | .stop => ⟨jobs, delivered, sends, true⟩
  | .failed d2 => ⟨jobs, d2, sends, false⟩
  | .cont jobs1 d1 sent => alarmLoop send now jobs1 d1 (sends ++ sent.toList)
termination_by loopMeasure now jobs
decreasing_by exact alarmStep_cont_lt h

theorem alarmLoop_eq_stop {send : Job → Bool} {now : Int} {jobs : List Job} {d : Cache}
    (s : List Job) (h : alarmStep send now jobs d = .stop) :
    alarmLoop send now jobs d s = ⟨jobs, d, s, true⟩ := by
  rw [alarmLoop.eq_def]
  split <;> simp_all

theorem alarmLoop_eq_failed {send : Job → Bool} {now : Int} {jobs : List Job} {d d2 : Cache}
    (s : List Job) (h : alarmStep send now jobs d = .failed d2) :
    alarmLoop send now jobs d s = ⟨jobs, d2, s, false⟩ := by
  rw [alarmLoop.eq_def]
  split <;> simp_all

theorem alarmLoop_eq_cont {send : Job → Bool} {now : Int} {jobs j1 : List Job}
    {d d1 : Cache} {sent : Option Job} (s : List Job)
    (h : alarmStep send now jobs d = .cont j1 d1 sent) :
    alarmLoop send now jobs d s = alarmLoop send now j1 d1 (s ++ sent.toList) := by
  rw [alarmLoop.eq_def]
  split <;> simp_all

/-- The full per-guild Durable Object state: the persisted `jobs` list,
the persisted `delivered` cache, and the pending alarm time (if any). -/
structure GuildState where
  jobs : List Job
  delivered : Cache
  alarm : Option Int
deriving DecidableEq, Repr

/-- The result of one `alarm()` invocation. -/
structure AlarmResult where
  state : GuildState
  sends : List Job
  completed : Bool
deriving DecidableEq, Repr

/-- `GuildScheduler.alarm()`: load and prune the dedup cache, run the
drain loop, then (when no send failed) persist the pruned cache and point
the alarm at the earliest remaining job, clearing it when none remain.
A send failure leaves the jobs and alarm as they were and propagates. -/
def alarmRun (send : Job → Bool) (now : Int) (st : GuildState) : AlarmResult :=
  let d0 := pruneDelivered st.delivered now
  let out := alarmLoop send now st.jobs d0 []
  if out.completed then
    { state := { jobs := out.jobs,
                 delivered := pruneDelivered out.delivered now,
                 alarm := ((sortJobs out.jobs).head?).map (·.runAtMs) },
      sends := out.sends, completed := true }
  else
    { state := { jobs := out.jobs, delivered := out.delivered, alarm := st.alarm },
      sends := out.sends, completed := false }

/-- A `/schedule` request body, together with the UUID the handler draws
for the new job (`crypto.randomUUID()` is external input to the model). -/
structure SchedReq where
  newId : String
  guildId : String
  channelId : String
  doAtType : String
  doAtSubject : String
  scheduledUnix : Int
  repeatDaily : Bool
  createdBy : Option String
deriving DecidableEq, Repr

/-- The job record the `/schedule` handler builds from a request:
`runAtMs = scheduledUnix * 1000`. -/
def mkJob (r : SchedReq) : Job :=
  { id := r.newId
    guildId := r.guildId
    channelId := r.channelId
    doAtType := r.doAtType
    doAtSubject := r.doAtSubject
    scheduledUnix := r.scheduledUnix
    runAtMs := r.scheduledUnix * 1000
    repeatDaily := r.repeatDaily
    createdBy := r.createdBy }

/-- Response of the `/schedule` handler. -/
inductive SchedRes where
  | invalidType
  | ok (j : Job)
deriving DecidableEq, Repr

/-- The `/schedule` handler: reject unknown `doAtType`; otherwise append
the new job, sort, store, and resync the alarm from the freshly read
stored state. -/
def scheduleOp (st : GuildState) (r : SchedReq) : SchedRes × GuildState :=
  if hasHandler r.doAtType then
    let j := mkJob r
    let jobs1 := sortJobs (st.jobs ++ [j])
    (.ok j, { st with jobs := jobs1,
                      alarm := ((sortJobs jobs1).head?).map (·.runAtMs) })
  else (.invalidType, st)

/-- The `/list` handler: read the jobs, sort, and show the first 15. -/
def listOp (st : GuildState) : List Job :=
  (sortJobs st.jobs).take 15

/-- JavaScript `String.prototype.trim`: strip whitespace from both ends,
modelled structurally over the character list. -/
def jsTrim (s : String) : String :=
  ⟨((s.data.dropWhile Char.isWhitespace).reverse.dropWhile Char.isWhitespace).reverse⟩

/-- Response of the `/cancel` handler. -/
inductive CancelRes where
  | invalid
  | notFound
  | removed (j : Job)
deriving DecidableEq, Repr

/-- The `/cancel` handler: trim the id, reject the empty id, remove the
first job with that id inside a transaction (not-found is reported, not
an error, and mutates nothing), and resync the alarm after a removal. -/
def cancelOp (st : GuildState) (rawId : String) : CancelRes × GuildState :=
  let jobId := jsTrim rawId
  if jobId = "" then (.invalid, st)
  else
    match removeById st.jobs jobId with
    | (none, _) => (.notFound, st)
    | (some rem, rest) =>
      let jobs1 := sortJobs rest
      (.removed rem, { st with jobs := jobs1,
                               alarm := ((sortJobs jobs1).head?).map (·.runAtMs) })

/-- A client-facing mutation of the scheduler state. -/
inductive Op where
  | sched (r : SchedReq)
  | canc (rawId : String)
deriving Repr

def applyOp (st : GuildState) : Op → GuildState
  | .sched r => (scheduleOp st r).2
  | .canc i => (cancelOp st i).2

/-- A fresh Durable Object: no stored jobs, no dedup entries, no alarm. -/
def initState : GuildState := ⟨[], [], none⟩

def runOps (ops : List Op) : GuildState := ops.foldl applyOp initState

/-- The alarm consistency invariant: the alarm is absent exactly when the
job set is empty, and otherwise equals the minimum `runAtMs` over the set. -/
def alarmSpec (st : GuildState) : Prop :=
  (st.alarm = none ↔ st.jobs = []) ∧
  ∀ a, st.alarm = some a →
    (∃ j ∈ st.jobs, j.runAtMs = a) ∧ ∀ j ∈ st.jobs, a ≤ j.runAtMs

/-- Resyncing the alarm from the head of the sorted job list establishes
the alarm consistency invariant. -/
theorem resync_alarmSpec (jobs : List Job) (d : Cache) :
    alarmSpec ⟨jobs, d, ((sortJobs jobs).head?).map (·.runAtMs)⟩ := by
  constructor
  · show ((sortJobs jobs).head?).map (·.runAtMs) = none ↔ jobs = []
    rcases hs : (sortJobs jobs).head? with _ | j
    · simp only [hs, Option.map_none', true_iff]
      have h0 : sortJobs jobs = [] := List.head?_eq_none_iff.1 hs
      have h1 : List.Perm jobs (sortJobs jobs) := (sortJobs_perm jobs).symm
      rw [h0] at h1
      exact h1.eq_nil
    · simp only [hs, Option.map_some', false_iff, reduceCtorEq]
      intro hnil
      rw [hnil] at hs
      simp [sortJobs, List.insertionSort] at hs
  · intro a ha
    replace ha : ((sortJobs jobs).head?).map (·.runAtMs) = some a := ha
    rcases hs : (sortJobs jobs).head? with _ | j
    · rw [hs] at ha; simp at ha
    · rw [hs] at ha
      simp only [Option.map_some', Option.some.injEq] at ha
      obtain ⟨hmem, hmin⟩ := sortJobs_head_min hs
      exact ⟨⟨j, hmem, ha⟩, fun x hx => ha ▸ hmin x hx⟩

theorem pruneDelivered_mem {d : Cache} {nowMs : Int} {e : String × JSVal} :
    e ∈ pruneDelivered d nowMs ↔ e ∈ d ∧ pruneDrop e.2 nowMs = false := by
  induction d with
  | nil => simp [pruneDelivered]
  | cons x xs ih =>
    rcases x with ⟨k, v⟩
    by_cases hv : pruneDrop v nowMs
    · rw [pruneDelivered, if_pos hv]
      rw [ih]
      constructor
      · rintro ⟨h1, h2⟩
        exact ⟨List.mem_cons_of_mem _ h1, h2⟩
      · rintro ⟨h1, h2⟩
        rcases List.mem_cons.1 h1 with rfl | h3
        · rw [hv] at h2; exact absurd h2 (by simp)
        · exact ⟨h3, h2⟩
    · rw [pruneDelivered, if_neg hv]
      constructor
      · intro h1
        rcases List.mem_cons.1 h1 with rfl | h3
        · exact ⟨List.mem_cons_self _ _, by simpa using hv⟩
        · obtain ⟨h4, h5⟩ := ih.1 h3
          exact ⟨List.mem_cons_of_mem _ h4, h5⟩
      · rintro ⟨h1, h2⟩
        rcases List.mem_cons.1 h1 with rfl | h3
        · exact List.mem_cons_self _ _
        · exact List.mem_cons_of_mem _ (ih.2 ⟨h3, h2⟩)

theorem pruneDelivered_idem (d : Cache) (nowMs : Int) :
    pruneDelivered (pruneDelivered d nowMs) nowMs = pruneDelivered d nowMs := by
  induction d with
  | nil => rfl
  | cons x xs ih =>
    rcases x with ⟨k, v⟩
    by_cases hv : pruneDrop v nowMs
    · rw [pruneDelivered, if_pos hv, ih]
    · rw [pruneDelivered, if_neg hv, pruneDelivered, if_neg hv, ih]

theorem alarmSpec_init : alarmSpec initState := by
  constructor
  · simp [initState]
  · intro a ha
    simp [initState] at ha

theorem alarmSpec_applyOp {st : GuildState} (h : alarmSpec st) (op : Op) :
    alarmSpec (applyOp st op) := by
  cases op with
  | sched r =>
    show alarmSpec (scheduleOp st r).2
    rw [scheduleOp]
    by_cases hk : hasHandler r.doAtType
    · rw [if_pos hk]
      exact resync_alarmSpec _ _
    · rw [if_neg hk]
      exact h
  | canc i =>
    show alarmSpec (cancelOp st i).2
    rw [cancelOp]
    by_cases hz : jsTrim i = ""
    · rw [if_pos hz]
      exact h
    · rw [if_neg hz]
      rcases hr : removeById st.jobs (jsTrim i) with ⟨o, rest⟩
      cases o with
      | none => exact h
      | some rem => exact resync_alarmSpec _ _

theorem alarmSpec_runOps (ops : List Op) : alarmSpec (runOps ops) := by
  rw [runOps]
  have hgen : ∀ (l : List Op) (st : GuildState), alarmSpec st → alarmSpec (l.foldl applyOp st) := by
    intro l
    induction l with
    | nil => intro st h; exact h
    | cons o t ih =>
      intro st h
      rw [List.foldl_cons]
      exact ih _ (alarmSpec_applyOp h o)
  exact hgen ops initState alarmSpec_init

theorem alarmRun_completed_spec {send : Job → Bool} {now : Int} {st : GuildState}
    (h : (alarmRun send now st).completed = true) :
    alarmSpec (alarmRun send now st).state := by
  rw [alarmRun] at h ⊢
  rcases hout : alarmLoop send now st.jobs (pruneDelivered st.delivered now) [] with ⟨jobs1, d1, s1, c1⟩
  simp only [hout] at h ⊢
  cases c1 with
  | true =>
    simp only [if_pos rfl]
    exact resync_alarmSpec _ _
  | false =>
    simp at h

/-- Each iteration of the drain loop either stops with no job due,
continues, or fails because a send returned non-success. -/
theorem alarmStep_total (send : Job → Bool) (now : Int) (jobs : List Job) (d : Cache) :
    (alarmStep send now jobs d = .stop ∧ ∀ j ∈ jobs, now < j.runAtMs) ∨
    (∃ j1 d1 sent, alarmStep send now jobs d = .cont j1 d1 sent) ∨
    (∃ j, send j = false ∧ alarmStep send now jobs d = .failed (pruneDelivered d now)) := by
  rcases hh : (sortJobs jobs).head? with _ | j
  · left
    refine ⟨alarmStep_none hh, ?_⟩
    have h0 : sortJobs jobs = [] := List.head?_eq_none_iff.1 hh
    have h1 : List.Perm jobs (sortJobs jobs) := (sortJobs_perm jobs).symm
    rw [h0] at h1
    rw [h1.eq_nil]
    simp
  · by_cases hf : now < j.runAtMs
    · left
      refine ⟨alarmStep_future hh hf, ?_⟩
      obtain ⟨_, hmin⟩ := sortJobs_head_min hh
      intro x hx
      exact lt_of_lt_of_le hf (hmin x hx)
    · have hd : j.runAtMs ≤ now := not_lt.1 hf
      by_cases hk : (lookupKey d (deliveryKey j)).isSome
      · right; left
        exact ⟨_, _, _, alarmStep_dedup hh hd hk⟩
      · have hk2 : (lookupKey d (deliveryKey j)).isSome = false := by simpa using hk
        by_cases hha : hasHandler j.doAtType
        · by_cases hsj : send j
          · right; left
            exact ⟨_, _, _, alarmStep_sendOk hh hd hk2 hha hsj⟩
          · right; right
            exact ⟨j, by simpa using hsj, alarmStep_sendFail hh hd hk2 hha (by simpa using hsj)⟩
        · right; left
          exact ⟨_, _, _, alarmStep_purge hh hd hk2 (by simpa using hha)⟩

/-- When every send succeeds, the drain loop exits normally and leaves no
due job behind. -/
theorem alarmLoop_all_success {send : Job → Bool} {now : Int}
    (hs : ∀ j, send j = true) (n : Nat) :
    ∀ (jobs : List Job) (d : Cache) (s : List Job), loopMeasure now jobs ≤ n →
      (alarmLoop send now jobs d s).completed = true ∧
      ∀ j ∈ (alarmLoop send now jobs d s).jobs, now < j.runAtMs := by
  induction n with
  | zero =>
    intro jobs d s hle
    rcases alarmStep_total send now jobs d with ⟨hst, hdue⟩ | ⟨j1, d1, sent, hc⟩ | ⟨j, hjf, _⟩
    · rw [alarmLoop_eq_stop s hst]
      exact ⟨rfl, hdue⟩
    · have := alarmStep_cont_lt hc
      omega
    · rw [hs j] at hjf
      exact absurd hjf (by simp)
  | succ n ih =>
    intro jobs d s hle
    rcases alarmStep_total send now jobs d with ⟨hst, hdue⟩ | ⟨j1, d1, sent, hc⟩ | ⟨j, hjf, _⟩
    · rw [alarmLoop_eq_stop s hst]
      exact ⟨rfl, hdue⟩
    · rw [alarmLoop_eq_cont s hc]
      have hlt := alarmStep_cont_lt hc
      exact ih j1 d1 (s ++ sent.toList) (by omega)
    · rw [hs j] at hjf
      exact absurd hjf (by simp)

theorem alarmRun_of_loop_true {send : Job → Bool} {now : Int} {st : GuildState}
    {jobs1 : List Job} {d1 : Cache} {s1 : List Job}
    (h : alarmLoop send now st.jobs (pruneDelivered st.delivered now) [] = ⟨jobs1, d1, s1, true⟩) :
    alarmRun send now st =
      ⟨⟨jobs1, pruneDelivered d1 now, ((sortJobs jobs1).head?).map (·.runAtMs)⟩, s1, true⟩ := by
  rw [alarmRun]
  simp [h]

theorem alarmRun_of_loop_false {send : Job → Bool} {now : Int} {st : GuildState}
    {jobs1 : List Job} {d1 : Cache} {s1 : List Job}
    (h : alarmLoop send now st.jobs (pruneDelivered st.delivered now) [] = ⟨jobs1, d1, s1, false⟩) :
    alarmRun send now st = ⟨⟨jobs1, d1, st.alarm⟩, s1, false⟩ := by
  rw [alarmRun]
  simp [h]

/-- An empty scheduler state: the alarm invocation is a no-op. -/
theorem alarmRun_initState (send : Job → Bool) (now : Int) :
    alarmRun send now initState = ⟨⟨[], [], none⟩, [], true⟩ := by
  have hloop : alarmLoop send now ([] : List Job) ([] : Cache) [] = ⟨[], [], [], true⟩ :=
    alarmLoop_eq_stop [] (alarmStep_none rfl)
  have := @alarmRun_of_loop_true send now initState [] [] [] hloop
  simpa [initState] using this

theorem pruneDelivered_nil (now : Int) : pruneDelivered [] now = [] := rfl

theorem pruneDelivered_cons (k : String) (v : JSVal) (rest : Cache) (now : Int) :
    pruneDelivered ((k, v) :: rest) now =
      if pruneDrop v now then pruneDelivered rest now
      else (k, v) :: pruneDelivered rest now := rfl

theorem pruneDrop_num_false {t now : Int} (h : now - DELIVERED_TTL_MS ≤ t) :
    pruneDrop (.num t) now = false := by
  simp [pruneDrop]
  omega

theorem pruneDelivered_single_now (k : String) (now : Int) :
    pruneDelivered [(k, JSVal.num now)] now = [(k, JSVal.num now)] := by
  have hdrop : pruneDrop (.num now) now = false :=
    pruneDrop_num_false (by simp [DELIVERED_TTL_MS])
  rw [pruneDelivered_cons, hdrop]
  simp [pruneDelivered_nil]

theorem lookupKey_nil (k : String) : lookupKey [] k = none := rfl

theorem lookupKey_cons (k1 : String) (v : JSVal) (rest : Cache) (k : String) :
    lookupKey ((k1, v) :: rest) k = if k1 == k then some v else lookupKey rest k := by
  by_cases h : k1 == k
  · rw [if_pos h]
    simp only [lookupKey]
    rw [List.find?_cons_of_pos _ (by simpa using h)]
    rfl
  · rw [if_neg h]
    simp only [lookupKey]
    rw [List.find?_cons_of_neg _ (by simpa using h)]

theorem setKey_nil (k : String) (v : JSVal) : setKey [] k v = [(k, v)] := rfl

theorem sortJobs_nil : sortJobs [] = [] := rfl

theorem sortJobs_singleton (j : Job) : sortJobs [j] = [j] := rfl

theorem sortJobs_pair {a b : Job} (h : a.runAtMs ≤ b.runAtMs) : sortJobs [a, b] = [a, b] := by
  show List.orderedInsert jobLE a [b] = [a, b]
  rw [List.orderedInsert, if_pos (show jobLE a b from h)]

theorem removeOrReschedule_singleton (j : Job) (now : Int) :
    removeOrReschedule [j] j now = if j.repeatDaily then [advanceDaily j now] else [] := by
  rw [removeOrReschedule, sortJobs_singleton, removeMatch_cons_self]
  dsimp only
  by_cases hr : j.repeatDaily
  · rw [if_pos hr, if_pos hr]
    rfl
  · rw [if_neg hr, if_neg hr]
    rfl

/-- C10: `pruneDelivered(cache, nowMs)` keeps exactly the entries whose
value is a number at least `nowMs - 1,209,600,000` (14 days), deleting
every non-numeric entry and every expired timestamp, and leaves the kept
entries and their timestamps unchanged. -/
theorem claim10_pruneDelivered_exact (d : Cache) (nowMs : Int) (k : String) (v : JSVal) :
    (k, v) ∈ pruneDelivered d nowMs ↔
      ((k, v) ∈ d ∧ ∃ t : Int, v = JSVal.num t ∧ nowMs - 1209600000 ≤ t) := by
  rw [pruneDelivered_mem]
  constructor
  · rintro ⟨h1, h2⟩
    refine ⟨h1, ?_⟩
    cases v with
    | num t =>
      refine ⟨t, rfl, ?_⟩
      simp only [pruneDrop, decide_eq_false_iff_not, DELIVERED_TTL_MS] at h2
      omega
    | other => simp [pruneDrop] at h2
  · rintro ⟨h1, t, rfl, h3⟩
    refine ⟨h1, ?_⟩
    simp only [pruneDrop, decide_eq_false_iff_not, DELIVERED_TTL_MS]
    omega

/-- C8: scheduling a valid job with `dueUnix = T` on an empty Job Set and
reading it back via `/list` yields exactly the one stored entry, whose
`runAtMs` is `T * 1000` and whose `scheduledUnix` is `T`. -/
theorem claim8_schedule_list_roundtrip (r : SchedReq) (hk : hasHandler r.doAtType = true) :
    (scheduleOp initState r).1 = .ok (mkJob r) ∧
    listOp (scheduleOp initState r).2 = [mkJob r] ∧
    (mkJob r).runAtMs = r.scheduledUnix * 1000 ∧
    (mkJob r).scheduledUnix = r.scheduledUnix := by
  have hEq : scheduleOp initState r =
      (.ok (mkJob r), ⟨[mkJob r], [], some ((mkJob r).runAtMs)⟩) := by
    rw [scheduleOp, if_pos hk]
    rfl
  refine ⟨by rw [hEq], ?_, rfl, rfl⟩
  rw [hEq]
  rfl

/-- C8 witness: a concrete role-ping request at T = 5. -/
theorem claim8_witness :
    (hasHandler "ping-role" = true) ∧
    ((scheduleOp initState ⟨"id1", "g", "c", "ping-role", "42", 5, false, none⟩).1 =
        .ok (mkJob ⟨"id1", "g", "c", "ping-role", "42", 5, false, none⟩) ∧
      listOp (scheduleOp initState ⟨"id1", "g", "c", "ping-role", "42", 5, false, none⟩).2 =
        [mkJob ⟨"id1", "g", "c", "ping-role", "42", 5, false, none⟩] ∧
      (mkJob ⟨"id1", "g", "c", "ping-role", "42", 5, false, none⟩).runAtMs = 5 * 1000 ∧
      (mkJob ⟨"id1", "g", "c", "ping-role", "42", 5, false, none⟩).scheduledUnix = 5) :=
  ⟨rfl, claim8_schedule_list_roundtrip ⟨"id1", "g", "c", "ping-role", "42", 5, false, none⟩ rfl⟩

/-- C2: after any sequence of schedule/cancel operations from a fresh
state the alarm equals the minimum `runAtMs` over the Job Set (absent iff
the set is empty), and the same invariant holds after any alarm
invocation whose drain loop completes. -/
theorem claim2_alarm_consistency (ops : List Op) (send : Job → Bool) (now : Int)
    (st : GuildState) (hc : (alarmRun send now st).completed = true) :
    alarmSpec (runOps ops) ∧ alarmSpec (alarmRun send now st).state :=
  ⟨alarmSpec_runOps ops, alarmRun_completed_spec hc⟩

/-- C2 witness: the empty operation sequence and an alarm invocation on
the fresh state, which completes. -/
theorem claim2_witness :
    ((alarmRun (fun _ => true) 0 initState).completed = true) ∧
    (alarmSpec (runOps []) ∧ alarmSpec (alarmRun (fun _ => true) 0 initState).state) :=
  ⟨by rw [alarmRun_initState], claim2_alarm_consistency [] (fun _ => true) 0 initState
    (by rw [alarmRun_initState])⟩

/-- C6: when every send succeeds, one alarm invocation completes (the
drain loop terminates — `alarmLoop` is total by construction) and leaves
no job in the Job Set that is still due at `now`. -/
theorem claim6_drain_total (send : Job → Bool) (now : Int) (st : GuildState)
    (hs : ∀ j, send j = true) :
    (alarmRun send now st).completed = true ∧
    ∀ j ∈ (alarmRun send now st).state.jobs, now < j.runAtMs := by
  obtain ⟨h1, h2⟩ := alarmLoop_all_success hs (loopMeasure now st.jobs) st.jobs
    (pruneDelivered st.delivered now) [] (le_refl _)
  rcases hout : alarmLoop send now st.jobs (pruneDelivered st.delivered now) []
    with ⟨jobs1, d1, s1, c1⟩
  rw [hout] at h1 h2
  cases c1 with
  | false => simp at h1
  | true =>
    rw [alarmRun_of_loop_true hout]
    exact ⟨rfl, by simpa using h2⟩

/-- C6 witness: an always-succeeding messenger over the fresh state. -/
theorem claim6_witness :
    (∀ j : Job, (fun _ : Job => true) j = true) ∧
    ((alarmRun (fun _ => true) 0 initState).completed = true ∧
      ∀ j ∈ (alarmRun (fun _ => true) 0 initState).state.jobs, (0 : Int) < j.runAtMs) :=
  ⟨fun _ => rfl, claim6_drain_total (fun _ => true) 0 initState (fun _ => rfl)⟩

/-- C7: with a unique job carrying the canceled id, the first `/cancel`
reports the removed job, the second reports not-found (a normal outcome,
not an error) and leaves the state untouched; canceling an id absent from
the Job Set mutates no state. -/
theorem claim7_cancel_twice (st : GuildState) (rawId : String)
    (hne : jsTrim rawId ≠ "")
    (hcount : st.jobs.countP (fun j => j.id == jsTrim rawId) = 1) :
    (∃ rem, (cancelOp st rawId).1 = .removed rem ∧ rem.id = jsTrim rawId) ∧
    (cancelOp (cancelOp st rawId).2 rawId).1 = .notFound ∧
    (cancelOp (cancelOp st rawId).2 rawId).2 = (cancelOp st rawId).2 ∧
    (∀ st2 : GuildState, st2.jobs.countP (fun j => j.id == jsTrim rawId) = 0 →
      (cancelOp st2 rawId).1 = .notFound ∧ (cancelOp st2 rawId).2 = st2) := by
  have hgen : ∀ st2 : GuildState, st2.jobs.countP (fun j => j.id == jsTrim rawId) = 0 →
      (cancelOp st2 rawId).1 = .notFound ∧ (cancelOp st2 rawId).2 = st2 := by
    intro st2 h0
    have hr := @removeById_none st2.jobs (jsTrim rawId) h0
    simp only [cancelOp]
    rw [if_neg hne, hr]
    exact ⟨rfl, rfl⟩
  rcases hrem : removeById st.jobs (jsTrim rawId) with ⟨o, rest⟩
  cases o with
  | none =>
    obtain ⟨_, h0⟩ := removeById_none_of_eq hrem
    rw [h0] at hcount
    exact absurd hcount (by simp)
  | some rem =>
    have hperm := removeById_perm hrem
    have hid : rem.id = jsTrim rawId := removeById_id hrem
    have hc1 : cancelOp st rawId =
        (.removed rem,
          ⟨sortJobs rest, st.delivered,
            ((sortJobs (sortJobs rest)).head?).map (·.runAtMs)⟩) := by
      simp only [cancelOp]
      rw [if_neg hne, hrem]
    have hrest0 : rest.countP (fun j => j.id == jsTrim rawId) = 0 := by
      have hc := hperm.countP_eq (fun j => j.id == jsTrim rawId)
      rw [List.countP_cons] at hc
      have hb : (rem.id == jsTrim rawId) = true := by
        rw [hid]; simp
      rw [hb] at hc
      simp only [if_pos] at hc
      omega
    have hsorted0 : (sortJobs rest).countP (fun j => j.id == jsTrim rawId) = 0 := by
      rw [sortJobs_countP]; exact hrest0
    have hsecond := hgen ⟨sortJobs rest, st.delivered,
      ((sortJobs (sortJobs rest)).head?).map (·.runAtMs)⟩ hsorted0
    refine ⟨⟨rem, by rw [hc1], hid⟩, ?_, ?_, hgen⟩
    · rw [hc1]
      exact hsecond.1
    · rw [hc1]
      exact hsecond.2

/-- C7 witness: a one-job state whose job id is the canceled id. -/
theorem claim7_witness :
    (jsTrim "a" ≠ "") ∧
    ((⟨[⟨"a", "g", "c", "ping-role", "42", 5, 5000, false, none⟩], [], some 5000⟩ :
        GuildState).jobs.countP (fun j => j.id == jsTrim "a") = 1) ∧
    ((∃ rem, (cancelOp ⟨[⟨"a", "g", "c", "ping-role", "42", 5, 5000, false, none⟩], [],
          some 5000⟩ "a").1 = .removed rem ∧ rem.id = jsTrim "a") ∧
      (cancelOp (cancelOp ⟨[⟨"a", "g", "c", "ping-role", "42", 5, 5000, false, none⟩], [],
          some 5000⟩ "a").2 "a").1 = .notFound ∧
      (cancelOp (cancelOp ⟨[⟨"a", "g", "c", "ping-role", "42", 5, 5000, false, none⟩], [],
          some 5000⟩ "a").2 "a").2 =
        (cancelOp ⟨[⟨"a", "g", "c", "ping-role", "42", 5, 5000, false, none⟩], [],
          some 5000⟩ "a").2 ∧
      (∀ st2 : GuildState, st2.jobs.countP (fun j => j.id == jsTrim "a") = 0 →
        (cancelOp st2 "a").1 = .notFound ∧ (cancelOp st2 "a").2 = st2)) :=
  ⟨by decide, by decide,
    claim7_cancel_twice ⟨[⟨"a", "g", "c", "ping-role", "42", 5, 5000, false, none⟩], [],
      some 5000⟩ "a" (by decide) (by decide)⟩

/-- Running the drain loop over a single due, deliverable, not-yet-delivered
job: it is sent once, marked in the dedup cache, and removed (or, when
repeating, replaced by its advanced occurrence), after which the loop stops. -/
theorem alarmLoop_single_success {send : Job → Bool} {now : Int} {j : Job} {d0 : Cache}
    (hdue : j.runAtMs ≤ now) (hh : hasHandler j.doAtType = true)
    (hk : (lookupKey d0 (deliveryKey j)).isSome = false) (hsend : send j = true)
    (s : List Job) :
    alarmLoop send now [j] d0 s =
      ⟨if j.repeatDaily then [advanceDaily j now] else [],
       pruneDelivered (setKey d0 (deliveryKey j) (.num now)) now, s ++ [j], true⟩ := by
  have hh1 : (sortJobs [j]).head? = some j := rfl
  have hstep := @alarmStep_sendOk send now [j] d0 j hh1 hdue hk hh hsend
  rw [alarmLoop_eq_cont s hstep, removeOrReschedule_singleton]
  by_cases hr : j.repeatDaily
  · rw [if_pos hr]
    have hh2 : (sortJobs [advanceDaily j now]).head? = some (advanceDaily j now) := rfl
    rw [alarmLoop_eq_stop _ (alarmStep_future hh2 (advanceDaily_runAtMs_gt j now))]
    rfl
  · rw [if_neg hr]
    rw [alarmLoop_eq_stop _ (@alarmStep_none send now [] _ rfl)]
    rfl

/-- C1: a due job whose send succeeds is delivered exactly once across two
back-to-back alarm invocations — the first invocation sends it, records
the occurrence key, and removes (or reschedules) it; the second sends
nothing and leaves the Job Set as the first one left it. -/
theorem claim1_retried_wake_idempotent (send : Job → Bool) (now : Int) (j : Job)
    (hdue : j.runAtMs ≤ now) (hh : hasHandler j.doAtType = true) (hsend : send j = true) :
    (alarmRun send now ⟨[j], [], none⟩).sends = [j] ∧
    (alarmRun send now ⟨[j], [], none⟩).completed = true ∧
    (alarmRun send now ⟨[j], [], none⟩).state.jobs =
      (if j.repeatDaily then [advanceDaily j now] else []) ∧
    (alarmRun send now (alarmRun send now ⟨[j], [], none⟩).state).sends = [] ∧
    (alarmRun send now (alarmRun send now ⟨[j], [], none⟩).state).completed = true ∧
    (alarmRun send now (alarmRun send now ⟨[j], [], none⟩).state).state.jobs =
      (alarmRun send now ⟨[j], [], none⟩).state.jobs := by
  have hk0 : (lookupKey ([] : Cache) (deliveryKey j)).isSome = false := rfl
  have hloop1 := @alarmLoop_single_success send now j [] hdue hh hk0 hsend []
  have hd1 : pruneDelivered (setKey ([] : Cache) (deliveryKey j) (.num now)) now
      = [(deliveryKey j, JSVal.num now)] := by
    rw [setKey_nil, pruneDelivered_single_now]
  rw [hd1] at hloop1
  have hr1 := @alarmRun_of_loop_true send now ⟨[j], [], none⟩ _ _ _ hloop1
  rw [pruneDelivered_single_now] at hr1
  by_cases hrep : j.repeatDaily
  · rw [if_pos hrep] at hr1 ⊢
    have hh2 : (sortJobs [advanceDaily j now]).head? = some (advanceDaily j now) := rfl
    have hloop2 : alarmLoop send now [advanceDaily j now]
        (pruneDelivered [(deliveryKey j, JSVal.num now)] now) [] =
        ⟨[advanceDaily j now], pruneDelivered [(deliveryKey j, JSVal.num now)] now, [], true⟩ :=
      alarmLoop_eq_stop [] (alarmStep_future hh2 (advanceDaily_runAtMs_gt j now))
    have hr2 := @alarmRun_of_loop_true send now
      ⟨[advanceDaily j now], [(deliveryKey j, JSVal.num now)],
        ((sortJobs [advanceDaily j now]).head?).map (·.runAtMs)⟩ _ _ _ hloop2
    refine ⟨?_, ?_, ?_, ?_, ?_, ?_⟩ <;> simp [hr1, hr2]
  · rw [if_neg hrep] at hr1 ⊢
    have hloop2 : alarmLoop send now ([] : List Job)
        (pruneDelivered [(deliveryKey j, JSVal.num now)] now) [] =
        ⟨[], pruneDelivered [(deliveryKey j, JSVal.num now)] now, [], true⟩ :=
      alarmLoop_eq_stop [] (alarmStep_none rfl)
    have hr2 := @alarmRun_of_loop_true send now
      ⟨[], [(deliveryKey j, JSVal.num now)],
        ((sortJobs ([] : List Job)).head?).map (·.runAtMs)⟩ _ _ _ hloop2
    refine ⟨?_, ?_, ?_, ?_, ?_, ?_⟩ <;> simp [hr1, hr2]

/-- C1 witness: a non-repeating due role ping processed at time 2000. -/
theorem claim1_witness :
    ((⟨"a", "g", "c", "ping-role", "42", 1, 1000, false, none⟩ : Job).runAtMs ≤ (2000 : Int)) ∧
    (hasHandler (⟨"a", "g", "c", "ping-role", "42", 1, 1000, false, none⟩ : Job).doAtType = true) ∧
    ((fun _ : Job => true) ⟨"a", "g", "c", "ping-role", "42", 1, 1000, false, none⟩ = true) ∧
    ((alarmRun (fun _ => true) 2000
        ⟨[⟨"a", "g", "c", "ping-role", "42", 1, 1000, false, none⟩], [], none⟩).sends =
      [⟨"a", "g", "c", "ping-role", "42", 1, 1000, false, none⟩] ∧
      (alarmRun (fun _ => true) 2000
        ⟨[⟨"a", "g", "c", "ping-role", "42", 1, 1000, false, none⟩], [], none⟩).completed = true ∧
      (alarmRun (fun _ => true) 2000
        ⟨[⟨"a", "g", "c", "ping-role", "42", 1, 1000, false, none⟩], [], none⟩).state.jobs =
        (if (⟨"a", "g", "c", "ping-role", "42", 1, 1000, false, none⟩ : Job).repeatDaily
          then [advanceDaily ⟨"a", "g", "c", "ping-role", "42", 1, 1000, false, none⟩ 2000]
          else []) ∧
      (alarmRun (fun _ => true) 2000 (alarmRun (fun _ => true) 2000
        ⟨[⟨"a", "g", "c", "ping-role", "42", 1, 1000, false, none⟩], [], none⟩).state).sends = [] ∧
      (alarmRun (fun _ => true) 2000 (alarmRun (fun _ => true) 2000
        ⟨[⟨"a", "g", "c", "ping-role", "42", 1, 1000, false, none⟩], [], none⟩).state).completed =
        true ∧
      (alarmRun (fun _ => true) 2000 (alarmRun (fun _ => true) 2000
        ⟨[⟨"a", "g", "c", "ping-role", "42", 1, 1000, false, none⟩], [], none⟩).state).state.jobs =
        (alarmRun (fun _ => true) 2000
          ⟨[⟨"a", "g", "c", "ping-role", "42", 1, 1000, false, none⟩], [], none⟩).state.jobs) :=
  ⟨by decide, rfl, rfl,
    claim1_retried_wake_idempotent (fun _ => true) 2000
      ⟨"a", "g", "c", "ping-role", "42", 1, 1000, false, none⟩ (by decide) rfl rfl⟩

/-- C3: a repeating occurrence due at `T = runAtMs` processed at `now ≥ T`
is delivered exactly once and reinserted as the single occurrence
advanced by the least positive whole number of days `k` that puts
`T + k * 86400000` strictly after `now` (so a wake 3.5 days late yields
the first daily boundary after `now`, not `T + 86400000`). -/
theorem claim3_daily_catchup (send : Job → Bool) (now : Int) (j : Job)
    (hdue : j.runAtMs ≤ now) (hrep : j.repeatDaily = true)
    (hh : hasHandler j.doAtType = true) (hsend : send j = true) :
    ∃ k : Nat, 1 ≤ k ∧
      (alarmRun send now ⟨[j], [], none⟩).sends = [j] ∧
      (alarmRun send now ⟨[j], [], none⟩).completed = true ∧
      (alarmRun send now ⟨[j], [], none⟩).state.jobs =
        [{ j with scheduledUnix := j.scheduledUnix + (k : Int) * 86400,
                  runAtMs := j.runAtMs + (k : Int) * 86400000 }] ∧
      now < j.runAtMs + (k : Int) * 86400000 ∧
      (∀ k2 : Nat, 1 ≤ k2 → k2 < k → j.runAtMs + (k2 : Int) * 86400000 ≤ now) := by
  have hk0 : (lookupKey ([] : Cache) (deliveryKey j)).isSome = false := rfl
  have hloop1 := @alarmLoop_single_success send now j [] hdue hh hk0 hsend []
  have hd1 : pruneDelivered (setKey ([] : Cache) (deliveryKey j) (.num now)) now
      = [(deliveryKey j, JSVal.num now)] := by
    rw [setKey_nil, pruneDelivered_single_now]
  rw [hd1, if_pos hrep] at hloop1
  have hr1 := @alarmRun_of_loop_true send now ⟨[j], [], none⟩ _ _ _ hloop1
  obtain ⟨k, hk1, heq, hgt, hmin⟩ := advanceDaily_spec j now
  refine ⟨k, hk1, ?_, ?_, ?_, hgt, hmin⟩
  · simp [hr1]
  · simp [hr1]
  · simp only [hr1]
    rw [heq]

/-- C3 witness: a daily job due at T = 0 processed 3.5 days late
(now = 302,400,000 ms); the theorem forces k = 4, i.e. the first boundary
strictly after the processing time. -/
theorem claim3_witness :
    ((⟨"a", "g", "c", "ping-role", "42", 0, 0, true, none⟩ : Job).runAtMs ≤ (302400000 : Int)) ∧
    ((⟨"a", "g", "c", "ping-role", "42", 0, 0, true, none⟩ : Job).repeatDaily = true) ∧
    (hasHandler (⟨"a", "g", "c", "ping-role", "42", 0, 0, true, none⟩ : Job).doAtType = true) ∧
    (∃ k : Nat, 1 ≤ k ∧
      (alarmRun (fun _ => true) 302400000
        ⟨[⟨"a", "g", "c", "ping-role", "42", 0, 0, true, none⟩], [], none⟩).sends =
        [⟨"a", "g", "c", "ping-role", "42", 0, 0, true, none⟩] ∧
      (alarmRun (fun _ => true) 302400000
        ⟨[⟨"a", "g", "c", "ping-role", "42", 0, 0, true, none⟩], [], none⟩).completed = true ∧
      (alarmRun (fun _ => true) 302400000
        ⟨[⟨"a", "g", "c", "ping-role", "42", 0, 0, true, none⟩], [], none⟩).state.jobs =
        [{ (⟨"a", "g", "c", "ping-role", "42", 0, 0, true, none⟩ : Job) with
            scheduledUnix := (⟨"a", "g", "c", "ping-role", "42", 0, 0, true, none⟩ : Job).scheduledUnix + (k : Int) * 86400,
            runAtMs := (⟨"a", "g", "c", "ping-role", "42", 0, 0, true, none⟩ : Job).runAtMs + (k : Int) * 86400000 }] ∧
      (302400000 : Int) < (⟨"a", "g", "c", "ping-role", "42", 0, 0, true, none⟩ : Job).runAtMs + (k : Int) * 86400000 ∧
      (∀ k2 : Nat, 1 ≤ k2 → k2 < k →
        (⟨"a", "g", "c", "ping-role", "42", 0, 0, true, none⟩ : Job).runAtMs + (k2 : Int) * 86400000 ≤ (302400000 : Int))) :=
  ⟨by decide, rfl, rfl,
    claim3_daily_catchup (fun _ => true) 302400000
      ⟨"a", "g", "c", "ping-role", "42", 0, 0, true, none⟩ (by decide) rfl rfl rfl⟩

/-- C5: a due occurrence whose key is already in the dedup cache at the
start of an invocation (as after a crash between send-success and Job Set
removal) is not sent again but is still removed — or rescheduled, when
repeating — by that invocation. -/
theorem claim5_partial_progress (send : Job → Bool) (now : Int) (j : Job) (d : Cache)
    (hdue : j.runAtMs ≤ now)
    (hk : (lookupKey (pruneDelivered d now) (deliveryKey j)).isSome = true) :
    (alarmRun send now ⟨[j], d, none⟩).sends = [] ∧
    (alarmRun send now ⟨[j], d, none⟩).completed = true ∧
    (alarmRun send now ⟨[j], d, none⟩).state.jobs =
      (if j.repeatDaily then [advanceDaily j now] else []) := by
  have hh1 : (sortJobs [j]).head? = some j := rfl
  have hstep := @alarmStep_dedup send _ _ _ _ hh1 hdue hk
  have hloop := alarmLoop_eq_cont [] hstep
  rw [removeOrReschedule_singleton] at hloop
  by_cases hrep : j.repeatDaily
  · rw [if_pos hrep] at hloop ⊢
    have hh2 : (sortJobs [advanceDaily j now]).head? = some (advanceDaily j now) := rfl
    rw [alarmLoop_eq_stop _ (alarmStep_future hh2 (advanceDaily_runAtMs_gt j now))] at hloop
    have hr := @alarmRun_of_loop_true send now ⟨[j], d, none⟩ _ _ _ hloop
    refine ⟨?_, ?_, ?_⟩ <;> simp [hr]
  · rw [if_neg hrep] at hloop ⊢
    rw [alarmLoop_eq_stop _ (@alarmStep_none send now [] _ rfl)] at hloop
    have hr := @alarmRun_of_loop_true send now ⟨[j], d, none⟩ _ _ _ hloop
    refine ⟨?_, ?_, ?_⟩ <;> simp [hr]

/-- C5 witness: a due job whose occurrence key carries a fresh dedup
timestamp that survives the prune. -/
theorem claim5_witness :
    ((⟨"a", "g", "c", "ping-role", "42", 1, 1000, false, none⟩ : Job).runAtMs ≤ (2000 : Int)) ∧
    ((lookupKey
        (pruneDelivered [(deliveryKey ⟨"a", "g", "c", "ping-role", "42", 1, 1000, false, none⟩,
          JSVal.num 2000)] 2000)
        (deliveryKey ⟨"a", "g", "c", "ping-role", "42", 1, 1000, false, none⟩)).isSome = true) ∧
    ((alarmRun (fun _ => true) 2000
        ⟨[⟨"a", "g", "c", "ping-role", "42", 1, 1000, false, none⟩],
          [(deliveryKey ⟨"a", "g", "c", "ping-role", "42", 1, 1000, false, none⟩,
            JSVal.num 2000)], none⟩).sends = [] ∧
      (alarmRun (fun _ => true) 2000
        ⟨[⟨"a", "g", "c", "ping-role", "42", 1, 1000, false, none⟩],
          [(deliveryKey ⟨"a", "g", "c", "ping-role", "42", 1, 1000, false, none⟩,
            JSVal.num 2000)], none⟩).completed = true ∧
      (alarmRun (fun _ => true) 2000
        ⟨[⟨"a", "g", "c", "ping-role", "42", 1, 1000, false, none⟩],
          [(deliveryKey ⟨"a", "g", "c", "ping-role", "42", 1, 1000, false, none⟩,
            JSVal.num 2000)], none⟩).state.jobs =
        (if (⟨"a", "g", "c", "ping-role", "42", 1, 1000, false, none⟩ : Job).repeatDaily
          then [advanceDaily ⟨"a", "g", "c", "ping-role", "42", 1, 1000, false, none⟩ 2000]
          else [])) :=
  ⟨by decide, by decide,
    claim5_partial_progress (fun _ => true) 2000
      ⟨"a", "g", "c", "ping-role", "42", 1, 1000, false, none⟩
      [(deliveryKey ⟨"a", "g", "c", "ping-role", "42", 1, 1000, false, none⟩, JSVal.num 2000)]
      (by decide) (by decide)⟩

/-- C4: when the send for the earliest due occurrence fails, the
invocation propagates the failure, the occurrence stays in the Job Set,
and the dedup cache is persisted as-is (only pruned), without the
occurrence key; the alarm is left untouched. -/
theorem claim4_send_failure_atomic (send : Job → Bool) (now : Int) (st : GuildState)
    (j : Job) (t : List Job)
    (hsort : sortJobs st.jobs = j :: t) (hdue : j.runAtMs ≤ now)
    (hk : (lookupKey (pruneDelivered st.delivered now) (deliveryKey j)).isSome = false)
    (hh : hasHandler j.doAtType = true) (hsend : send j = false) :
    (alarmRun send now st).completed = false ∧
    (alarmRun send now st).sends = [] ∧
    (alarmRun send now st).state.jobs = st.jobs ∧
    (alarmRun send now st).state.delivered = pruneDelivered st.delivered now ∧
    (lookupKey (alarmRun send now st).state.delivered (deliveryKey j)).isSome = false ∧
    j ∈ (alarmRun send now st).state.jobs ∧
    (alarmRun send now st).state.alarm = st.alarm := by
  have hh1 : (sortJobs st.jobs).head? = some j := by rw [hsort]; rfl
  have hstep := @alarmStep_sendFail send _ _ _ _ hh1 hdue hk hh hsend
  have hloop := alarmLoop_eq_failed [] hstep
  rw [pruneDelivered_idem] at hloop
  have hr := @alarmRun_of_loop_false send now st _ _ _ hloop
  have hmem : j ∈ st.jobs := by
    refine sortJobs_mem.1 ?_
    rw [hsort]
    exact List.mem_cons_self j t
  refine ⟨?_, ?_, ?_, ?_, ?_, ?_, ?_⟩ <;> simp [hr, hk, hmem]

/-- C4 witness: a single due job and an always-failing messenger. -/
theorem claim4_witness :
    (sortJobs (⟨[⟨"a", "g", "c", "ping-role", "42", 1, 1000, false, none⟩], [], some 1000⟩ :
        GuildState).jobs = [⟨"a", "g", "c", "ping-role", "42", 1, 1000, false, none⟩]) ∧
    ((⟨"a", "g", "c", "ping-role", "42", 1, 1000, false, none⟩ : Job).runAtMs ≤ (2000 : Int)) ∧
    ((fun _ : Job => false) ⟨"a", "g", "c", "ping-role", "42", 1, 1000, false, none⟩ = false) ∧
    ((alarmRun (fun _ => false) 2000
        ⟨[⟨"a", "g", "c", "ping-role", "42", 1, 1000, false, none⟩], [], some 1000⟩).completed =
      false ∧
      (alarmRun (fun _ => false) 2000
        ⟨[⟨"a", "g", "c", "ping-role", "42", 1, 1000, false, none⟩], [], some 1000⟩).sends = [] ∧
      (alarmRun (fun _ => false) 2000
        ⟨[⟨"a", "g", "c", "ping-role", "42", 1, 1000, false, none⟩], [], some 1000⟩).state.jobs =
        (⟨[⟨"a", "g", "c", "ping-role", "42", 1, 1000, false, none⟩], [], some 1000⟩ :
          GuildState).jobs ∧
      (alarmRun (fun _ => false) 2000
        ⟨[⟨"a", "g", "c", "ping-role", "42", 1, 1000, false, none⟩], [], some 1000⟩).state.delivered =
        pruneDelivered (⟨[⟨"a", "g", "c", "ping-role", "42", 1, 1000, false, none⟩], [],
          some 1000⟩ : GuildState).delivered 2000 ∧
      (lookupKey (alarmRun (fun _ => false) 2000
        ⟨[⟨"a", "g", "c", "ping-role", "42", 1, 1000, false, none⟩], [], some 1000⟩).state.delivered
        (deliveryKey ⟨"a", "g", "c", "ping-role", "42", 1, 1000, false, none⟩)).isSome = false ∧
      ⟨"a", "g", "c", "ping-role", "42", 1, 1000, false, none⟩ ∈
        (alarmRun (fun _ => false) 2000
          ⟨[⟨"a", "g", "c", "ping-role", "42", 1, 1000, false, none⟩], [], some 1000⟩).state.jobs ∧
      (alarmRun (fun _ => false) 2000
        ⟨[⟨"a", "g", "c", "ping-role", "42", 1, 1000, false, none⟩], [], some 1000⟩).state.alarm =
        (⟨[⟨"a", "g", "c", "ping-role", "42", 1, 1000, false, none⟩], [], some 1000⟩ :
          GuildState).alarm) :=
  ⟨rfl, by decide, rfl,
    claim4_send_failure_atomic (fun _ => false) 2000
      ⟨[⟨"a", "g", "c", "ping-role", "42", 1, 1000, false, none⟩], [], some 1000⟩
      ⟨"a", "g", "c", "ping-role", "42", 1, 1000, false, none⟩ [] rfl (by decide) (by decide)
      rfl rfl⟩

/-- C9: a due occurrence whose `doAtType` has no registered handler is
purged from the Job Set without a send (and without rescheduling even
when `repeatDaily`), and the invocation keeps draining: the later due job
with a valid kind is still delivered in the same invocation. -/
theorem claim9_unknown_kind_purge (send : Job → Bool) (now : Int) (jbad jgood : Job)
    (hdb : jbad.runAtMs ≤ now) (hdg : jgood.runAtMs ≤ now)
    (hord : jbad.runAtMs ≤ jgood.runAtMs)
    (hbad : hasHandler jbad.doAtType = false) (hgood : hasHandler jgood.doAtType = true)
    (hrg : jgood.repeatDaily = false) (hsg : send jgood = true) :
    (alarmRun send now ⟨[jbad, jgood], [], none⟩).sends = [jgood] ∧
    (alarmRun send now ⟨[jbad, jgood], [], none⟩).state.jobs = [] ∧
    (alarmRun send now ⟨[jbad, jgood], [], none⟩).completed = true := by
  have hpair : sortJobs [jbad, jgood] = [jbad, jgood] := sortJobs_pair hord
  have hh1 : (sortJobs [jbad, jgood]).head? = some jbad := by rw [hpair]; rfl
  have hk0 : (lookupKey ([] : Cache) (deliveryKey jbad)).isSome = false := rfl
  have hstep1 := @alarmStep_purge send _ _ _ _ hh1 hdb hk0 hbad
  have hpurge : purgeJob [jbad, jgood] jbad = [jgood] := by
    rw [purgeJob, removeMatch_cons_self]
    rfl
  have hloop := alarmLoop_eq_cont [] hstep1
  rw [hpurge] at hloop
  have hk1 : (lookupKey ([] : Cache) (deliveryKey jgood)).isSome = false := rfl
  rw [alarmLoop_single_success hdg hgood hk1 hsg _, if_neg (by rw [hrg]; simp)] at hloop
  have hr := @alarmRun_of_loop_true send now ⟨[jbad, jgood], [], none⟩ _ _ _ hloop
  refine ⟨?_, ?_, ?_⟩ <;> simp [hr]

/-- C9 witness: a corrupt repeating job and a valid due job behind it. -/
theorem claim9_witness :
    ((⟨"b", "g", "c", "bogus-kind", "x", 1, 1000, true, none⟩ : Job).runAtMs ≤ (2000 : Int)) ∧
    ((⟨"a", "g", "c", "ping-role", "42", 1, 1500, false, none⟩ : Job).runAtMs ≤ (2000 : Int)) ∧
    (hasHandler (⟨"b", "g", "c", "bogus-kind", "x", 1, 1000, true, none⟩ : Job).doAtType = false) ∧
    (hasHandler (⟨"a", "g", "c", "ping-role", "42", 1, 1500, false, none⟩ : Job).doAtType = true) ∧
    ((alarmRun (fun _ => true) 2000
        ⟨[⟨"b", "g", "c", "bogus-kind", "x", 1, 1000, true, none⟩,
          ⟨"a", "g", "c", "ping-role", "42", 1, 1500, false, none⟩], [], none⟩).sends =
      [⟨"a", "g", "c", "ping-role", "42", 1, 1500, false, none⟩] ∧
      (alarmRun (fun _ => true) 2000
        ⟨[⟨"b", "g", "c", "bogus-kind", "x", 1, 1000, true, none⟩,
          ⟨"a", "g", "c", "ping-role", "42", 1, 1500, false, none⟩], [], none⟩).state.jobs = [] ∧
      (alarmRun (fun _ => true) 2000
        ⟨[⟨"b", "g", "c", "bogus-kind", "x", 1, 1000, true, none⟩,
          ⟨"a", "g", "c", "ping-role", "42", 1, 1500, false, none⟩], [], none⟩).completed = true) :=
  ⟨by decide, by decide, rfl, rfl,
    claim9_unknown_kind_purge (fun _ => true) 2000
      ⟨"b", "g", "c", "bogus-kind", "x", 1, 1000, true, none⟩
      ⟨"a", "g", "c", "ping-role", "42", 1, 1500, false, none⟩
      (by decide) (by decide) (by decide) rfl rfl rfl rfl⟩
